import Mathlib

/-!
Verification development for the swift-idna repository fragment.

The repository's `src/` exposes two C headers:
  `CSwiftIDNA.h` (the per-code-point mapping-result surface) and
  `CSwiftDNSIDNATesting.h` (the conformance test-vector surface).
The engine behind those declarations (mapping-table lookup, Punycode codec,
toUnicode / toAsciiN transforms, conformance harness) is not part of the
visible sources; those parts are modelled here from the specification, and
each such definition carries a doc comment starting `Modelled from the spec:`.
Scalars and strings are modelled as `Nat` and `List Nat` (sequences of
Unicode scalar values / bytes); arithmetic is unbounded.
-/

/-- IDNA2008 status enum from CSwiftIDNA.h (`IDNA_STATUS_NV8/XV8/NONE`). -/
inductive IDNA2008Status where
  | NV8
  | XV8
  | NONE
deriving DecidableEq, Repr, Fintype

/-- Numeric values of the C enum `IDNA2008Status`. -/
def IDNA2008Status.toC : IDNA2008Status → Nat
  | .NV8 => 0
  | .XV8 => 1
  | .NONE => 2

/-- IDNA mapping result types from CSwiftIDNA.h (`IDNAMappingResultType`):
exactly the five cases declared there. -/
inductive IDNAMappingResultType where
  | VALID
  | MAPPED
  | DEVIATION
  | DISALLOWED
  | IGNORED
deriving DecidableEq, Repr, Fintype

/-- Numeric values of the C enum `IDNAMappingResultType`. -/
def IDNAMappingResultType.toC : IDNAMappingResultType → Nat
  | .VALID => 0
  | .MAPPED => 1
  | .DEVIATION => 2
  | .DISALLOWED => 3
  | .IGNORED => 4

/-- A classification entry of the mapping table (spec §3 MappingEntry):
`status` is meaningful only for `VALID` entries, `replacement` only for
`MAPPED`/`DEVIATION` entries. -/
structure MappingEntry where
  kind : IDNAMappingResultType
  status : Option IDNA2008Status
  replacement : List Nat
deriving DecidableEq, Repr

/-- The C struct `IDNAMappingResult` from CSwiftIDNA.h: `type` and `status`
are `uint8_t`, `mapped_unicode_scalars` is the pointed-to array of
`uint32_t` scalars, and `mapped_count` is the `uint8_t` number of mapped
scalars. -/
structure IDNAMappingResult where
  type : Fin 256
  status : Fin 256
  mapped_unicode_scalars : List Nat
  mapped_count : Fin 256
deriving DecidableEq, Repr

/-- Meaning of the C struct per the header comment: `mapped_count` is the
number of mapped Unicode scalars, i.e. the length of the pointed-to array. -/
def wfIDNAMappingResult (r : IDNAMappingResult) : Prop :=
  r.mapped_unicode_scalars.length = r.mapped_count.val

/-- A stored range of the mapping table: code points `lo..hi` all carry the
same classification entry (spec §3 invariant). -/
structure MappingRange where
  lo : Nat
  hi : Nat
  entry : MappingEntry
deriving DecidableEq, Repr

/-- Does range `r` contain code point `c`. -/
def inRange (c : Nat) (r : MappingRange) : Bool :=
  decide (r.lo ≤ c) && decide (c ≤ r.hi)

/-- Modelled from the spec: the load-time invariant check of the mapping
table (§4.1), whose implementation is not under src/. `coversFrom lo rs`
holds when `rs` is a sorted, contiguous, non-overlapping list of ranges
covering exactly `lo..0x10FFFF`. -/
def coversFrom (lo : Nat) : List MappingRange → Bool
  | [] => false
  | [r] => decide (r.lo = lo) && decide (r.lo ≤ r.hi) && decide (r.hi = 0x10FFFF)
  | r :: rest => decide (r.lo = lo) && decide (r.lo ≤ r.hi) && coversFrom (r.hi + 1) rest

/-- The whole-table well-formedness invariant: coverage of `0x0..0x10FFFF`. -/
def tableWF (rs : List MappingRange) : Bool := coversFrom 0 rs

/-- Modelled from the spec: table construction (§4.1) validates the
invariant at load time; a violation is a fatal initialization error,
modelled as `none`. -/
def loadTable (rs : List MappingRange) : Option (List MappingRange) :=
  if tableWF rs then some rs else none

/-- Error vocabulary of the lookup contract (spec §4.1): inputs outside
`0x0..0x10FFFF` fail with `OutOfRange`. -/
inductive IDNAError where
  | outOfRange
deriving DecidableEq, Repr

/-- Modelled from the spec: binary search over the sorted range list
(§4.1), fuel-indexed so that it is structurally recursive. The fuel is
always instantiated with the list length, which suffices since each step
recurses on a strictly shorter list. -/
def bsearchGo : Nat → Nat → List MappingRange → Option MappingRange
  | 0, _, _ => none
  | fuel + 1, c, rs =>
    match rs[rs.length / 2]? with
    | none => none
    | some r =>
      if c < r.lo then bsearchGo fuel c (rs.take (rs.length / 2))
      else if r.hi < c then bsearchGo fuel c (rs.drop (rs.length / 2 + 1))
      else some r

/-- Modelled from the spec: `lookup(codePoint) -> MappingEntry` (§4.1), the
implementation behind the C declaration `idna_mapping_lookup`, which is not
under src/. Total over `0x0..0x10FFFF` for a load-validated table; inputs
outside that range fail with `OutOfRange`. -/
def idna_mapping_lookup (t : List MappingRange) (c : Nat) : Except IDNAError MappingEntry :=
  if c ≤ 0x10FFFF then
    match bsearchGo t.length c t with
    | some r => .ok r.entry
    | none => .error .outOfRange
  else .error .outOfRange

/-- Modelled from the spec: the mapping-table data source is an external
collaborator (§6) absent from src/. This fragment contains exactly the one
entry the spec fixes concretely — `lookup(0x00DF) = Deviation, "ss"` (§8) —
with the surrounding code-point space filled by `VALID` placeholder ranges
so the load-time totality invariant holds. -/
def uts46Fragment : List MappingRange :=
  [⟨0x0, 0xDE, ⟨.VALID, some .NONE, []⟩⟩,
   ⟨0xDF, 0xDF, ⟨.DEVIATION, none, [0x73, 0x73]⟩⟩,
   ⟨0xE0, 0x10FFFF, ⟨.VALID, some .NONE, []⟩⟩]

namespace Punycode

/-- Bootstring parameter (spec §4.2). -/
def base : Nat := 36

/-- Bootstring parameter (spec §4.2). -/
def tmin : Nat := 1

/-- Bootstring parameter (spec §4.2). -/
def tmax : Nat := 26

/-- Bootstring parameter (spec §4.2). -/
def skew : Nat := 38

/-- Bootstring parameter (spec §4.2). -/
def damp : Nat := 700

/-- Bootstring parameter (spec §4.2). -/
def initialBias : Nat := 72

/-- Bootstring parameter (spec §4.2). -/
def initialN : Nat := 0x80

/-- Bootstring delimiter `-` (spec §4.2). -/
def delimiter : Nat := 0x2D

/-- The adaptive threshold function `t(k, bias)` clamped to `tmin..tmax`. -/
def threshold (k bias : Nat) : Nat :=
  if k ≤ bias + tmin then tmin
  else if bias + tmax ≤ k then tmax
  else k - bias

/-- Division loop of the bias adaptation function, fuel-indexed; the fuel
is instantiated with the starting delta, which suffices since delta shrinks
by a factor of `base - tmin` every iteration. -/
def adaptLoop : Nat → Nat → Nat → Nat × Nat
  | 0, delta, k => (delta, k)
  | fuel + 1, delta, k =>
    if ((base - tmin) * tmax) / 2 < delta then
      adaptLoop fuel (delta / (base - tmin)) (k + base)
    else (delta, k)

/-- Modelled from the spec: the bias adaptation function of the Bootstring
codec (§4.2), not under src/. -/
def adapt (delta numpoints : Nat) (firsttime : Bool) : Nat :=
  let d1 := if firsttime then delta / damp else delta / 2
  let d2 := d1 + d1 / numpoints
  let p := adaptLoop d2 d2 0
  p.2 + ((base - tmin + 1) * p.1) / (p.1 + skew)

/-- Basic code points are emitted verbatim; digits map to `a..z`, `0..9`. -/
def digitToChar (d : Nat) : Nat :=
  if d < 26 then 0x61 + d else 0x30 + (d - 26)

/-- Inverse digit decoding; characters outside base-36 are invalid. -/
def charToDigit (c : Nat) : Option Nat :=
  if 0x61 ≤ c ∧ c ≤ 0x7A then some (c - 0x61)
  else if 0x41 ≤ c ∧ c ≤ 0x5A then some (c - 0x41)
  else if 0x30 ≤ c ∧ c ≤ 0x39 then some (c - 0x30 + 26)
  else none

/-- A valid Unicode scalar value: below 0x110000 and not a lone surrogate. -/
def validScalar (c : Nat) : Bool :=
  decide (c < 0x110000) && !(decide (0xD800 ≤ c) && decide (c ≤ 0xDFFF))

/-- Generalized variable-length integer encoding of one delta (spec §4.2),
fuel-indexed; the fuel is always instantiated with `delta + 1`, which
suffices since the residual delta strictly decreases. -/
def encodeVarF : Nat → Nat → Nat → Nat → List Nat
  | 0, _, _, delta => [delta]
  | fuel + 1, bias, k, delta =>
    let t := threshold k bias
    if delta < t then [delta]
    else (t + (delta - t) % (base - t)) :: encodeVarF fuel bias (k + base) ((delta - t) / (base - t))

/-- One delta encoded as a digit-value sequence with the given bias. -/
def encodeDelta (bias delta : Nat) : List Nat := encodeVarF (delta + 1) bias base delta

/-- Generalized variable-length integer decoding: consumes one digit group
from the stream, accumulating onto `acc`; `none` on a digit outside base-36
or an incomplete final group (spec §4.2 `BadInput` conditions). -/
def decodeVar (bias : Nat) : Nat → Nat → Nat → List Nat → Option (Nat × List Nat)
  | _, _, _, [] => none
  | k, w, acc, d :: rest =>
    if base ≤ d then none
    else
      let acc2 := acc + d * w
      let t := threshold k bias
      if d < t then some (acc2, rest)
      else decodeVar bias (k + base) (w * (base - t)) acc2 rest

/-- Modelled from the spec: the encoder's scan over the input for the
current code point `n` (§4.2): each scalar below `n` bumps delta, each
scalar equal to `n` emits the accumulated delta as digits and adapts the
bias. Returns the emitted digit values and the final bias, delta and
handled-count. -/
def encScan (b n : Nat) : List Nat → Nat → Nat → Nat → List Nat × Nat × Nat × Nat
  | [], bias, delta, h => ([], bias, delta, h)
  | c :: rest, bias, delta, h =>
    if c < n then encScan b n rest bias (delta + 1) h
    else if c = n then
      let ds := encodeDelta bias delta
      let bias2 := adapt delta (h + 1) (decide (h = b))
      let r := encScan b n rest bias2 0 (h + 1)
      (ds ++ r.1, r.2)
    else encScan b n rest bias delta h

/-- The minimum element of `l` that is at least `n`, if any. -/
def minGE (n : Nat) : List Nat → Option Nat
  | [] => none
  | c :: rest =>
    match minGE n rest with
    | none => if n ≤ c then some c else none
    | some m => if n ≤ c then some (min c m) else some m

/-- Modelled from the spec: the encoder's outer loop (§4.2) — find the
minimum not-yet-handled scalar `m ≥ n`, advance delta by
`(m - n) * (h + 1)`, scan, then bump delta and `n` and repeat until all
scalars are handled. Fuel-indexed; `s.length + 1` passes always suffice
since every pass handles at least one scalar. -/
def encLoop (s : List Nat) (b : Nat) : Nat → Nat → Nat → Nat → Nat → List Nat
  | 0, _, _, _, _ => []
  | fuel + 1, n, bias, delta, h =>
    if h < s.length then
      match minGE n s with
      | none => []
      | some m =>
        let r := encScan b m s bias (delta + (m - n) * (h + 1)) h
        r.1 ++ encLoop s b fuel (m + 1) r.2.1 (r.2.2.1 + 1) r.2.2.2
    else []

/-- Modelled from the spec: `encode(scalars) -> ascii_string` (§4.2), not
under src/. The ASCII prefix is extracted verbatim, a delimiter is appended
when that prefix is non-empty, then deltas are emitted as adaptive
variable-length digits. Arithmetic is modelled on unbounded naturals, so
the `Overflow` failure reserved for counts beyond the representable range
cannot arise in the model and encoding is total. -/
def punycode_encode (s : List Nat) : List Nat :=
  let bs := s.filter (fun c => decide (c < initialN))
  let ds := encLoop s bs.length (s.length + 1) initialN initialBias 0 bs.length
  bs ++ (if bs.length = 0 then [] else [delimiter]) ++ ds.map digitToChar

/-- Hard-failure vocabulary of the codec (spec §4.2 / §7). -/
inductive PunycodeError where
  | overflow
  | badInput
deriving DecidableEq, Repr

/-- Split an ASCII label body at its last delimiter: `some (pre, suf)`
when a delimiter occurs, `none` otherwise. -/
def splitLast : List Nat → Option (List Nat × List Nat)
  | [] => none
  | c :: rest =>
    match splitLast rest with
    | some p => some (c :: p.1, p.2)
    | none => if c = delimiter then some ([], rest) else none

/-- Decode every character of the digit-encoded suffix to its digit value;
`none` when any character is outside base-36. -/
def charsToDigits : List Nat → Option (List Nat)
  | [] => some []
  | c :: rest =>
    match charToDigit c, charsToDigits rest with
    | some d, some ds => some (d :: ds)
    | _, _ => none

/-- Modelled from the spec: the decoder's insertion loop (§4.2) — decode
one delta, split the running index into a code-point advance and an
insertion position, insert, repeat. Fuel-indexed; `ds.length + 1` suffices
since every step consumes at least one digit. -/
def decLoop : Nat → List Nat → Nat → Nat → Nat → List Nat → Except PunycodeError (List Nat)
  | _, out, _, _, _, [] => .ok out
  | 0, _, _, _, _, _ :: _ => .error .badInput
  | fuel + 1, out, n, i, bias, d :: ds =>
    match decodeVar bias base 1 i (d :: ds) with
    | none => .error .badInput
    | some p =>
      let L := out.length + 1
      let n2 := n + p.1 / L
      decLoop fuel (out.insertIdx (p.1 % L) n2) n2 (p.1 % L + 1) (adapt (p.1 - i) L (decide (i = 0))) p.2

/-- Modelled from the spec: `decode(ascii_string) -> sequence<u32>` (§4.2),
not under src/. Splits at the last delimiter into a literal prefix and a
digit-encoded suffix and replays the insertions, failing with `BadInput` on
digits outside base-36 or an incomplete final digit group. -/
def punycode_decode (a : List Nat) : Except PunycodeError (List Nat) :=
  let sp := match splitLast a with
    | some p => p
    | none => (([] : List Nat), a)
  match charsToDigits sp.2 with
  | none => .error .badInput
  | some ds => decLoop (ds.length + 1) sp.1 initialN 0 initialBias ds

end Punycode

/-- Status-code vocabulary of a transform result (spec §3). -/
inductive StatusCode where
  | disallowed
  | disallowedSTD3Valid
  | disallowedSTD3Mapped
  | mapped
  | deviation
  | valid
  | emptyLabel
  | bidi
  | contextJ
  | leadingCombiningMark
  | punycode
  | tooLong
  | tooShort
  | labelTooLong
  | domainNameTooLong
  | duplicateAceLabel
deriving DecidableEq, Repr

/-- Output of a transform (spec §3): a best-effort result string plus the
set of status codes describing every departure from strict validity. -/
structure TransformResult where
  result : List Nat
  statuses : List StatusCode
deriving DecidableEq, Repr

/-- The four recognized label separators (spec §3 Label). -/
def isSeparator (c : Nat) : Bool :=
  decide (c = 0x2E) || decide (c = 0x3002) || decide (c = 0xFF0E) || decide (c = 0xFF61)

/-- Modelled from the spec: splitting a name into labels on the four
separators (§4.3 step 1); empty labels are kept. -/
def splitLabels : List Nat → List (List Nat)
  | [] => [[]]
  | c :: rest =>
    let ls := splitLabels rest
    if isSeparator c then [] :: ls
    else
      match ls with
      | [] => [[c]]
      | l :: ls2 => (c :: l) :: ls2

/-- The ACE marker `xn--` as a scalar sequence. -/
def xnDashDash : List Nat := [0x78, 0x6E, 0x2D, 0x2D]

/-- Does the (pre-mapping) label begin with the ACE marker `xn--`. -/
def isACE (l : List Nat) : Bool := xnDashDash.isPrefixOf l

/-- Re-join labels with U+002E (spec §4.3 step 6). -/
def joinDots : List (List Nat) → List Nat
  | [] => []
  | [l] => l
  | l :: ls => l ++ 0x2E :: joinDots ls

/-- Modelled from the spec: per-scalar mapping for `toUnicode` (§4.3 step
2): `VALID` passes through, `MAPPED` and `DEVIATION` substitute the
replacement (deviation handling is always the mapped form for
`toUnicode`), `DISALLOWED` records status `disallowed` and passes the
scalar through, `IGNORED` drops it. A lookup error cannot arise for text
scalars and passes the scalar through. -/
def mapScalar (t : List MappingRange) (c : Nat) : List Nat × List StatusCode :=
  match idna_mapping_lookup t c with
  | .ok e =>
    match e.kind with
    | .VALID => ([c], [])
    | .MAPPED => (e.replacement, [])
    | .DEVIATION => (e.replacement, [])
    | .DISALLOWED => ([c], [StatusCode.disallowed])
    | .IGNORED => ([], [])
  | .error _ => ([c], [])

/-- Apply `mapScalar` across a label, concatenating outputs and statuses. -/
def mapLabel (t : List MappingRange) : List Nat → List Nat × List StatusCode
  | [] => ([], [])
  | c :: rest =>
    let p := mapScalar t c
    let q := mapLabel t rest
    (p.1 ++ q.1, p.2 ++ q.2)

/-- Modelled from the spec: per-label `toUnicode` processing (§4.3 steps
2-5), not under src/. A label that is not ACE-prefixed is mapped and then
NFC-normalized (the normalizer is the external collaborator `norm`); an
ACE-prefixed label has its suffix Punycode-decoded, where a decode failure
records status `punycode` and leaves the label unchanged. `val` is the
per-label validation step (step 5), which only appends status codes. -/
def processLabelToUnicode (t : List MappingRange) (norm : List Nat → List Nat)
    (val : List Nat → List StatusCode) (label : List Nat) : List Nat × List StatusCode :=
  if isACE label then
    match Punycode.punycode_decode (label.drop 4) with
    | .error _ => (label, [StatusCode.punycode])
    | .ok scalars => (scalars, val scalars)
  else
    let m := mapLabel t label
    let normed := norm m.1
    (normed, m.2 ++ val normed)

/-- Modelled from the spec: `toUnicode(name) -> TransformResult` (§4.3),
not under src/. Splits into labels, processes each, re-joins with U+002E,
and accumulates every label's status codes; it always returns a best-effort
result string, never a thrown failure. -/
def toUnicode (t : List MappingRange) (norm : List Nat → List Nat)
    (val : List Nat → List StatusCode) (name : List Nat) : TransformResult :=
  let ps := (splitLabels name).map (processLabelToUnicode t norm val)
  ⟨joinDots (ps.map (·.1)), (ps.map (·.2)).flatten⟩

/-- Modelled from the spec: per-scalar mapping for `toAsciiN` (§4.3):
deviation handling branches on `transitional` — transitional mode maps
deviation scalars to their replacement, nontransitional mode passes them
through unchanged while still recording status `deviation`. -/
def mapScalarT (t : List MappingRange) (transitional : Bool) (c : Nat) :
    List Nat × List StatusCode :=
  match idna_mapping_lookup t c with
  | .ok e =>
    match e.kind with
    | .VALID => ([c], [])
    | .MAPPED => (e.replacement, [])
    | .DEVIATION =>
      if transitional then (e.replacement, []) else ([c], [StatusCode.deviation])
    | .DISALLOWED => ([c], [StatusCode.disallowed])
    | .IGNORED => ([], [])
  | .error _ => ([c], [])

/-- Apply `mapScalarT` across a label. -/
def mapLabelT (t : List MappingRange) (transitional : Bool) :
    List Nat → List Nat × List StatusCode
  | [] => ([], [])
  | c :: rest =>
    let p := mapScalarT t transitional c
    let q := mapLabelT t transitional rest
    (p.1 ++ q.1, p.2 ++ q.2)

/-- Modelled from the spec: `toAsciiN(name, transitional)` (§4.3), not
under src/. Steps 1-3 of `toUnicode` with the transitional deviation
branch, per-label validation, Punycode-encoding with the `xn--` marker for
labels still containing non-ASCII scalars, and the post-encoding length
checks. Every failure is non-fatal: the function always returns a result
string plus the accumulated status set. -/
def toAsciiN (t : List MappingRange) (norm : List Nat → List Nat)
    (val : List Nat → List StatusCode) (transitional : Bool) (name : List Nat) :
    TransformResult :=
  let processed := (splitLabels name).map (fun l =>
    let m := mapLabelT t transitional l
    let normed := norm m.1
    (normed, m.2 ++ val normed))
  let encoded := processed.map (fun p =>
    if p.1.all (fun c => decide (c < 0x80)) then p
    else (xnDashDash ++ Punycode.punycode_encode p.1, p.2))
  let checked := encoded.map (fun p =>
    if 63 < p.1.length then (p.1, p.2 ++ [StatusCode.labelTooLong]) else p)
  let result := joinDots (checked.map (·.1))
  ⟨result, (checked.map (·.2)).flatten ++
    (if 253 < result.length then [StatusCode.domainNameTooLong] else [])⟩

/-- A conformance test vector (spec §3 TestVector): expected strings plus
sets of acceptable status-code sets — the corpus allows multiple admissible
status-set outcomes per vector. -/
structure TestVector where
  source : List Nat
  toUnicodeExpected : List Nat
  toUnicodeStatuses : List (List StatusCode)
  toAsciiNExpected : List Nat
  toAsciiNStatuses : List (List StatusCode)

/-- Equality of two status-code lists as sets. -/
def setEqSC (a b : List StatusCode) : Bool :=
  a.all (fun c => decide (c ∈ b)) && b.all (fun c => decide (c ∈ a))

/-- Is the produced status set a member of the admissible status sets. -/
def memberOfSets (s : List StatusCode) (sets : List (List StatusCode)) : Bool :=
  sets.any (fun adm => setEqSC adm s)

/-- Modelled from the spec: the conformance harness' per-vector check
(§4.4), not under src/ — compare each result's string to the expected
string and its status set for membership in the admissible status sets. -/
def vectorPasses (t : List MappingRange) (norm : List Nat → List Nat)
    (val : List Nat → List StatusCode) (v : TestVector) : Bool :=
  let ru := toUnicode t norm val v.source
  let ra := toAsciiN t norm val false v.source
  decide (ru.result = v.toUnicodeExpected) && memberOfSets ru.statuses v.toUnicodeStatuses &&
    (decide (ra.result = v.toAsciiNExpected) && memberOfSets ra.statuses v.toAsciiNStatuses)

/-- Modelled from the spec: `run(vectors)` (§4.4) — per-vector outcomes,
never aborting early. -/
def runHarness (t : List MappingRange) (norm : List Nat → List Nat)
    (val : List Nat → List StatusCode) (vs : List TestVector) : List Bool :=
  vs.map (vectorPasses t norm val)

namespace Punycode

theorem tmin_le_threshold (k bias : Nat) : tmin ≤ threshold k bias := by
  unfold threshold tmin tmax
  split
  · omega
  · split <;> omega

theorem threshold_le_tmax (k bias : Nat) : threshold k bias ≤ tmax := by
  unfold threshold tmin tmax
  split
  · omega
  · split <;> omega

theorem threshold_lt_base (k bias : Nat) : threshold k bias < base := by
  have := threshold_le_tmax k bias
  unfold tmax at this
  unfold base
  omega

theorem encodeVarF_digit_lt (fuel : Nat) :
    ∀ bias k delta, delta < fuel → ∀ d ∈ encodeVarF fuel bias k delta, d < base := by
  induction fuel with
  | zero => intro bias k delta h; omega
  | succ fuel ih =>
    intro bias k delta hfuel d hd
    have ht1 : tmin ≤ threshold k bias := tmin_le_threshold k bias
    have ht2 : threshold k bias < base := threshold_lt_base k bias
    by_cases hlt : delta < threshold k bias
    · simp only [encodeVarF, if_pos hlt, List.mem_singleton] at hd
      omega
    · simp only [encodeVarF, if_neg hlt, List.mem_cons] at hd
      rcases hd with hd | hd
      · have hm : (delta - threshold k bias) % (base - threshold k bias) <
            base - threshold k bias :=
          Nat.mod_lt _ (by omega)
        omega
      · refine ih bias (k + base) _ ?_ d hd
        have h1 : (delta - threshold k bias) / (base - threshold k bias) ≤
            delta - threshold k bias := Nat.div_le_self _ _
        unfold tmin at ht1
        omega

theorem encodeDelta_digit_lt (bias delta : Nat) :
    ∀ d ∈ encodeDelta bias delta, d < base :=
  encodeVarF_digit_lt (delta + 1) bias base delta (Nat.lt_succ_self delta)

theorem encodeVarF_ne_nil (fuel bias k delta : Nat) :
    encodeVarF fuel bias k delta ≠ [] := by
  cases fuel with
  | zero => simp [encodeVarF]
  | succ fuel =>
    simp only [encodeVarF]
    split <;> simp

theorem encodeDelta_ne_nil (bias delta : Nat) : encodeDelta bias delta ≠ [] :=
  encodeVarF_ne_nil (delta + 1) bias base delta

theorem decodeVar_encodeVarF (fuel : Nat) :
    ∀ bias k delta acc w rest, delta < fuel → 0 < w →
      decodeVar bias k w acc (encodeVarF fuel bias k delta ++ rest) =
        some (acc + delta * w, rest) := by
  induction fuel with
  | zero => intro bias k delta acc w rest h; omega
  | succ fuel ih =>
    intro bias k delta acc w rest hfuel hw
    have ht1 : tmin ≤ threshold k bias := tmin_le_threshold k bias
    have ht2 : threshold k bias < base := threshold_lt_base k bias
    by_cases hlt : delta < threshold k bias
    · have hdb : delta < base := by omega
      simp only [encodeVarF, if_pos hlt, List.cons_append, List.nil_append, decodeVar,
        if_neg (by omega : ¬ base ≤ delta), if_pos hlt]
    · set t := threshold k bias with htdef
      set M := delta - t with hMdef
      set B := base - t with hBdef
      have hBpos : 0 < B := by omega
      have hdig : M % B < B := Nat.mod_lt _ hBpos
      have hge : ¬ (t + M % B < t) := by omega
      have hbase : ¬ (base ≤ t + M % B) := by omega
      have hrec : M / B < fuel := by
        have h1 : M / B ≤ M := Nat.div_le_self _ _
        unfold tmin at ht1
        omega
      simp only [encodeVarF, if_neg hlt, List.cons_append, decodeVar, if_neg hbase,
        if_neg hge]
      rw [ih bias (k + base) (M / B) (acc + (t + M % B) * w) (w * B) rest hrec
        (Nat.mul_pos hw hBpos)]
      congr 2
      have hmd : M % B + M / B * B = M := Nat.mod_add_div' M B
      have htM : t + M = delta := by omega
      calc acc + (t + M % B) * w + M / B * (w * B)
          = acc + (t + (M % B + M / B * B)) * w := by ring
        _ = acc + (t + M) * w := by rw [hmd]
        _ = acc + delta * w := by rw [htM]

theorem decodeVar_encodeDelta_eq (bias delta acc : Nat) (rest : List Nat) :
    decodeVar bias base 1 acc (encodeDelta bias delta ++ rest) =
      some (acc + delta, rest) := by
  have h := decodeVar_encodeVarF (delta + 1) bias base delta acc 1 rest
    (Nat.lt_succ_self delta) Nat.one_pos
  simpa [encodeDelta] using h

theorem decodeVar_length_lt :
    ∀ (l : List Nat) (bias k w acc : Nat) (p : Nat × List Nat),
      decodeVar bias k w acc l = some p → p.2.length < l.length := by
  intro l
  induction l with
  | nil => intro bias k w acc p h; simp [decodeVar] at h
  | cons d rest ih =>
    intro bias k w acc p h
    simp only [decodeVar] at h
    by_cases hb : base ≤ d
    · rw [if_pos hb] at h; exact absurd h (by simp)
    · rw [if_neg hb] at h
      by_cases hlt : d < threshold k bias
      · rw [if_pos hlt] at h
        injection h with h
        subst h
        simp
      · rw [if_neg hlt] at h
        have := ih bias (k + base) (w * (base - threshold k bias))
          (acc + d * w) p h
        simp only [List.length_cons]
        omega

theorem decLoop_nil (fuel : Nat) (out : List Nat) (n i bias : Nat) :
    decLoop fuel out n i bias [] = .ok out := by
  cases fuel <;> rfl

theorem decLoop_fuel_eq :
    ∀ (f1 f2 : Nat) (out : List Nat) (n i bias : Nat) (ds : List Nat),
      ds.length < f1 → ds.length < f2 →
      decLoop f1 out n i bias ds = decLoop f2 out n i bias ds := by
  intro f1
  induction f1 with
  | zero => intro f2 out n i bias ds h1; omega
  | succ g1 ih =>
    intro f2 out n i bias ds h1 h2
    cases ds with
    | nil => rw [decLoop_nil, decLoop_nil]
    | cons d ds0 =>
      cases f2 with
      | zero => omega
      | succ g2 =>
        simp only [decLoop]
        cases hdv : decodeVar bias base 1 i (d :: ds0) with
        | none => rfl
        | some p =>
          have hlen := decodeVar_length_lt _ _ _ _ _ _ hdv
          simp only [List.length_cons] at hlen h1 h2
          exact ih g2 _ _ _ _ p.2 (by omega) (by omega)

theorem decLoop_step (fuel : Nat) (out : List Nat) (n i bias delta : Nat) (T : List Nat)
    (hfuel : (encodeDelta bias delta ++ T).length < fuel) :
    decLoop fuel out n i bias (encodeDelta bias delta ++ T) =
      decLoop (T.length + 1)
        (out.insertIdx ((i + delta) % (out.length + 1))
          (n + (i + delta) / (out.length + 1)))
        (n + (i + delta) / (out.length + 1))
        ((i + delta) % (out.length + 1) + 1)
        (adapt delta (out.length + 1) (decide (i = 0))) T := by
  cases henc : encodeDelta bias delta with
  | nil => exact absurd henc (encodeDelta_ne_nil bias delta)
  | cons d ds0 =>
    rw [henc] at hfuel
    cases fuel with
    | zero => simp at hfuel
    | succ f =>
      have hdv : decodeVar bias base 1 i (d :: (ds0 ++ T)) = some (i + delta, T) := by
        have h := decodeVar_encodeDelta_eq bias delta i T
        rw [henc] at h
        simpa using h
      simp only [List.cons_append, decLoop, List.append_eq, hdv]
      have hsub : i + delta - i = delta := by omega
      rw [hsub]
      refine decLoop_fuel_eq f (T.length + 1) _ _ _ _ T ?_ (Nat.lt_succ_self _)
      simp only [List.length_cons, List.length_append] at hfuel
      omega

theorem insertIdx_at_append (A B : List Nat) (x : Nat) :
    (A ++ B).insertIdx A.length x = A ++ x :: B := by
  induction A with
  | nil => rfl
  | cons a A ih => simpa [List.insertIdx_succ_cons] using ih

theorem minGE_none (n : Nat) :
    ∀ (s : List Nat), minGE n s = none → ∀ c ∈ s, c < n := by
  intro s
  induction s with
  | nil => intro _ c hc; simp at hc
  | cons a s ih =>
    intro h c hc
    cases hm : minGE n s with
    | none =>
      simp only [minGE, hm] at h
      by_cases hna : n ≤ a
      · rw [if_pos hna] at h; exact absurd h (by simp)
      · rcases List.mem_cons.mp hc with heq | hc2
        · omega
        · exact ih hm c hc2
    | some m =>
      simp only [minGE, hm] at h
      split at h <;> exact absurd h (by simp)

theorem minGE_some (n : Nat) :
    ∀ (s : List Nat) (m : Nat), minGE n s = some m →
      m ∈ s ∧ n ≤ m ∧ ∀ c ∈ s, n ≤ c → m ≤ c := by
  intro s
  induction s with
  | nil => intro m h; simp [minGE] at h
  | cons a s ih =>
    intro m h
    cases hm : minGE n s with
    | none =>
      have hrest := minGE_none n s hm
      simp only [minGE, hm] at h
      by_cases hna : n ≤ a
      · rw [if_pos hna] at h
        injection h with h
        subst h
        refine ⟨List.mem_cons_self _ _, hna, ?_⟩
        intro c hc hnc
        rcases List.mem_cons.mp hc with heq | hc2
        · omega
        · exact absurd hnc (by have := hrest c hc2; omega)
      · rw [if_neg hna] at h
        exact absurd h (by simp)
    | some m0 =>
      obtain ⟨hmem, hge, hmin⟩ := ih m0 hm
      simp only [minGE, hm] at h
      by_cases hna : n ≤ a
      · rw [if_pos hna] at h
        injection h with h
        subst h
        constructor
        · rcases Nat.le_total a m0 with hle | hle
          · rw [min_eq_left hle]; exact List.mem_cons_self _ _
          · rw [min_eq_right hle]; exact List.mem_cons_of_mem _ hmem
        constructor
        · exact le_min hna hge
        · intro c hc hnc
          rcases List.mem_cons.mp hc with heq | hc2
          · subst heq; exact min_le_left _ _
          · exact le_trans (min_le_right _ _) (hmin c hc2 hnc)
      · rw [if_neg hna] at h
        injection h with h
        subst h
        refine ⟨List.mem_cons_of_mem _ hmem, hge, ?_⟩
        intro c hc hnc
        rcases List.mem_cons.mp hc with heq | hc2
        · omega
        · exact hmin c hc2 hnc

theorem filter_length_mono (p q : Nat → Bool) :
    ∀ (l : List Nat), (∀ c ∈ l, p c = true → q c = true) →
      (l.filter p).length ≤ (l.filter q).length := by
  intro l
  induction l with
  | nil => intro _; simp
  | cons a l ih =>
    intro h
    have hrest := ih (fun c hc => h c (List.mem_cons_of_mem _ hc))
    by_cases hp : p a = true
    · have hq := h a (List.mem_cons_self _ _) hp
      simp only [List.filter_cons, hp, hq, if_true, List.length_cons]
      omega
    · have hp2 : p a = false := by revert hp; cases p a <;> simp
      simp only [List.filter_cons, hp2, Bool.false_eq_true, if_false]
      by_cases hq : q a = true
      · simp only [hq, if_true, List.length_cons]
        omega
      · have hq2 : q a = false := by revert hq; cases q a <;> simp
        simp only [hq2, Bool.false_eq_true, if_false]
        exact hrest

theorem filter_eq_self_of_length (p : Nat → Bool) :
    ∀ (l : List Nat), (l.filter p).length = l.length → l.filter p = l := by
  intro l
  induction l with
  | nil => intro _; rfl
  | cons a l ih =>
    intro h
    have hle := List.length_filter_le p l
    by_cases hp : p a = true
    · simp only [List.filter_cons, hp, if_true, List.length_cons] at h ⊢
      rw [ih (by omega)]
    · have hp2 : p a = false := by revert hp; cases p a <;> simp
      simp only [List.filter_cons, hp2, Bool.false_eq_true, if_false] at h
      simp only [List.length_cons] at h
      omega

theorem length_filter_lt_of_mem (m n : Nat) :
    ∀ (s : List Nat), m ∈ s → n ≤ m →
      (s.filter (fun c => decide (c < n))).length <
        (s.filter (fun c => decide (c ≤ m))).length := by
  intro s
  induction s with
  | nil => intro h; simp at h
  | cons a s ih =>
    intro hmem hnm
    have hmono : ∀ l : List Nat, (l.filter (fun c => decide (c < n))).length ≤
        (l.filter (fun c => decide (c ≤ m))).length := by
      intro l
      refine filter_length_mono _ _ l ?_
      intro c _ hc
      simp only [decide_eq_true_eq] at hc ⊢
      omega
    rcases List.mem_cons.mp hmem with heq | hmem2
    · have h1 : (decide (a < n)) = false := decide_eq_false (by omega)
      have h2 : (decide (a ≤ m)) = true := decide_eq_true (by omega)
      simp only [List.filter_cons, h1, h2, Bool.false_eq_true, if_false, if_true,
        List.length_cons]
      exact Nat.lt_succ_of_le (hmono s)
    · have h := ih hmem2 hnm
      by_cases han : a < n
      · have h1 : (decide (a < n)) = true := decide_eq_true han
        have h2 : (decide (a ≤ m)) = true := decide_eq_true (by omega)
        simp only [List.filter_cons, h1, h2, if_true, List.length_cons]
        omega
      · have h1 : (decide (a < n)) = false := decide_eq_false han
        by_cases ham : a ≤ m
        · have h2 : (decide (a ≤ m)) = true := decide_eq_true ham
          simp only [List.filter_cons, h1, h2, Bool.false_eq_true, if_false, if_true,
            List.length_cons]
          omega
        · have h2 : (decide (a ≤ m)) = false := decide_eq_false ham
          simp only [List.filter_cons, h1, h2, Bool.false_eq_true, if_false]
          exact h

theorem encScan_nil (b n bias delta h : Nat) :
    encScan b n [] bias delta h = ([], bias, delta, h) := rfl

theorem encScan_cons_lt (b n c : Nat) (rest : List Nat) (bias delta h : Nat) (hc : c < n) :
    encScan b n (c :: rest) bias delta h = encScan b n rest bias (delta + 1) h := by
  simp only [encScan, if_pos hc]

theorem encScan_cons_eq (b n : Nat) (rest : List Nat) (bias delta h : Nat) :
    encScan b n (n :: rest) bias delta h =
      (encodeDelta bias delta ++
        (encScan b n rest (adapt delta (h + 1) (decide (h = b))) 0 (h + 1)).1,
       (encScan b n rest (adapt delta (h + 1) (decide (h = b))) 0 (h + 1)).2) := by
  simp only [encScan, if_neg (lt_irrefl n), eq_self_iff_true, if_true]

theorem encScan_cons_gt (b n c : Nat) (rest : List Nat) (bias delta h : Nat)
    (hc1 : ¬ c < n) (hc2 : ¬ c = n) :
    encScan b n (c :: rest) bias delta h = encScan b n rest bias delta h := by
  simp only [encScan, if_neg hc1, if_neg hc2]

theorem filterLT_cons_pos (n c : Nat) (l : List Nat) (h : c < n) :
    (c :: l).filter (fun x => decide (x < n)) =
      c :: l.filter (fun x => decide (x < n)) := by
  simp [List.filter_cons, h]

theorem filterLT_cons_neg (n c : Nat) (l : List Nat) (h : ¬ c < n) :
    (c :: l).filter (fun x => decide (x < n)) =
      l.filter (fun x => decide (x < n)) := by
  simp [List.filter_cons, h]

theorem filterLE_cons_pos (n c : Nat) (l : List Nat) (h : c ≤ n) :
    (c :: l).filter (fun x => decide (x ≤ n)) =
      c :: l.filter (fun x => decide (x ≤ n)) := by
  simp [List.filter_cons, h]

theorem filterLE_cons_neg (n c : Nat) (l : List Nat) (h : ¬ c ≤ n) :
    (c :: l).filter (fun x => decide (x ≤ n)) =
      l.filter (fun x => decide (x ≤ n)) := by
  simp [List.filter_cons, h]

theorem encScan_sim (b n : Nat) :
    ∀ (rest P : List Nat) (bias delta h ndec idec : Nat) (T : List Nat) (fuel : Nat),
      h = (P ++ rest.filter (fun c => decide (c < n))).length →
      idec + delta + ndec * (h + 1) = n * (h + 1) + P.length →
      ndec ≤ n →
      ((idec = 0) ↔ (h = b)) →
      b ≤ h →
      ((encScan b n rest bias delta h).1 ++ T).length < fuel →
      ∃ n2 i2,
        decLoop fuel (P ++ rest.filter (fun c => decide (c < n))) ndec idec bias
            ((encScan b n rest bias delta h).1 ++ T) =
          decLoop (T.length + 1) (P ++ rest.filter (fun c => decide (c ≤ n))) n2 i2
            (encScan b n rest bias delta h).2.1 T ∧
        (encScan b n rest bias delta h).2.2.2 =
          (P ++ rest.filter (fun c => decide (c ≤ n))).length ∧
        i2 + (encScan b n rest bias delta h).2.2.1 +
            n2 * ((encScan b n rest bias delta h).2.2.2 + 1) =
          n * ((encScan b n rest bias delta h).2.2.2 + 1) +
            (P ++ rest.filter (fun c => decide (c ≤ n))).length ∧
        n2 ≤ n ∧
        ((i2 = 0) ↔ ((encScan b n rest bias delta h).2.2.2 = b)) ∧
        b ≤ (encScan b n rest bias delta h).2.2.2 := by
  intro rest
  induction rest with
  | nil =>
    intro P bias delta h ndec idec T fuel hh hinv hnd hfirst hbh hfuel
    simp only [encScan_nil, List.filter_nil, List.append_nil,
      List.nil_append] at hh hinv hfuel ⊢
    exact ⟨ndec, idec,
      decLoop_fuel_eq fuel (T.length + 1) _ _ _ _ T hfuel (Nat.lt_succ_self _),
      hh, hinv, hnd, hfirst, hbh⟩
  | cons c rest ih =>
    intro P bias delta h ndec idec T fuel hh hinv hnd hfirst hbh hfuel
    by_cases hc1 : c < n
    · -- scalar below n: it is already inserted, delta ticks by one
      rw [encScan_cons_lt b n c rest bias delta h hc1] at hfuel ⊢
      rw [filterLT_cons_pos n c rest hc1] at hh ⊢
      rw [filterLE_cons_pos n c rest (by omega)]
      rw [List.append_cons P c (rest.filter (fun x => decide (x < n)))] at hh ⊢
      rw [List.append_cons P c (rest.filter (fun x => decide (x ≤ n)))]
      refine ih (P ++ [c]) bias (delta + 1) h ndec idec T fuel hh ?_ hnd hfirst hbh hfuel
      simp only [List.length_append, List.length_cons, List.length_nil]
      omega
    · by_cases hc2 : c = n
      · -- scalar equal to n: the encoder emits the pending delta here
        subst hc2
        rw [encScan_cons_eq b c rest bias delta h] at hfuel ⊢
        rw [filterLT_cons_neg c c rest hc1] at hh ⊢
        rw [filterLE_cons_pos c c rest (Nat.le_refl c)]
        set bias2 := adapt delta (h + 1) (decide (h = b)) with hbias2
        set r := encScan b c rest bias2 0 (h + 1) with hr
        dsimp only at hfuel ⊢
        -- the digit stream starts with the emitted block
        rw [List.append_assoc] at hfuel ⊢
        have hL : (P ++ rest.filter (fun x => decide (x < c))).length = h := hh.symm
        have hplen : P.length ≤ h := by
          rw [← hL]; simp only [List.length_append]; omega
        -- arithmetic for the decoder's division step
        have hkey : idec + delta = P.length + (c - ndec) * (h + 1) := by
          have e3 : (c - ndec) * (h + 1) = c * (h + 1) - ndec * (h + 1) :=
            Nat.sub_mul c ndec (h + 1)
          have e4 : ndec * (h + 1) ≤ c * (h + 1) :=
            Nat.mul_le_mul_right _ hnd
          omega
        have hmod : (idec + delta) % (h + 1) = P.length := by
          rw [hkey, Nat.add_mul_mod_self_right]
          exact Nat.mod_eq_of_lt (by omega)
        have hval : ndec + (idec + delta) / (h + 1) = c := by
          rw [hkey, Nat.add_mul_div_right _ _ (Nat.succ_pos h),
            Nat.div_eq_of_lt (by omega : P.length < h + 1)]
          omega
        have hflag : (decide (idec = 0)) = (decide (h = b)) :=
          decide_eq_decide.mpr hfirst
        have hstep := decLoop_step fuel (P ++ rest.filter (fun x => decide (x < c)))
          ndec idec bias delta (r.1 ++ T) hfuel
        rw [hL, hmod, hval, hflag, ← hbias2,
          insertIdx_at_append P (rest.filter (fun x => decide (x < c))) c,
          List.append_cons P c (rest.filter (fun x => decide (x < c)))] at hstep
        -- set up the tail of the scan via the induction hypothesis
        have hh2 : h = P.length + (rest.filter (fun x => decide (x < c))).length := by
          rw [hh]; simp [List.length_append]
        obtain ⟨n2, i2, hrun, hpost1, hpost2, hpost3, hpost4, hpost5⟩ :=
          ih (P ++ [c]) bias2 0 (h + 1) c (P.length + 1) T ((r.1 ++ T).length + 1)
            (by simp only [List.length_append, List.length_cons, List.length_nil]; omega)
            (by simp only [List.length_append, List.length_cons, List.length_nil]; omega)
            (Nat.le_refl c)
            (by omega)
            (by omega)
            (by rw [← hr]; exact Nat.lt_succ_self _)
        rw [← hr] at hrun hpost1 hpost2 hpost4
        rw [List.append_cons P c (rest.filter (fun x => decide (x ≤ c)))]
        exact ⟨n2, i2, hstep.trans hrun, hpost1, hpost2, hpost3, hpost4, hpost5⟩
      · -- scalar above n: untouched by this pass
        rw [encScan_cons_gt b n c rest bias delta h hc1 hc2] at hfuel ⊢
        rw [filterLT_cons_neg n c rest hc1] at hh ⊢
        rw [filterLE_cons_neg n c rest (by omega)]
        exact ih P bias delta h ndec idec T fuel hh hinv hnd hfirst hbh hfuel

theorem encScan_digits_lt (b n : Nat) :
    ∀ (rest : List Nat) (bias delta h : Nat),
      ∀ d ∈ (encScan b n rest bias delta h).1, d < base := by
  intro rest
  induction rest with
  | nil => intro bias delta h d hd; rw [encScan_nil] at hd; simp at hd
  | cons c rest ih =>
    intro bias delta h d hd
    by_cases hc1 : c < n
    · rw [encScan_cons_lt b n c rest bias delta h hc1] at hd
      exact ih _ _ _ d hd
    · by_cases hc2 : c = n
      · subst hc2
        rw [encScan_cons_eq b c rest bias delta h] at hd
        rcases List.mem_append.mp hd with hd | hd
        · exact encodeDelta_digit_lt bias delta d hd
        · exact ih _ _ _ d hd
      · rw [encScan_cons_gt b n c rest bias delta h hc1 hc2] at hd
        exact ih _ _ _ d hd

theorem encLoop_digits_lt (s : List Nat) (b : Nat) :
    ∀ (fuel npar bias delta h : Nat),
      ∀ d ∈ encLoop s b fuel npar bias delta h, d < base := by
  intro fuel
  induction fuel with
  | zero => intro npar bias delta h d hd; simp [encLoop] at hd
  | succ fuel ih =>
    intro npar bias delta h d hd
    by_cases hlt : h < s.length
    · cases hm : minGE npar s with
      | none => simp only [encLoop, if_pos hlt, hm] at hd; simp at hd
      | some m =>
        simp only [encLoop, if_pos hlt, hm] at hd
        rcases List.mem_append.mp hd with hd | hd
        · exact encScan_digits_lt b m s _ _ _ d hd
        · exact ih _ _ _ _ d hd
    · simp only [encLoop, if_neg hlt] at hd; simp at hd

theorem digitToChar_ne_delimiter (d : Nat) (h : d < base) :
    digitToChar d ≠ delimiter := by
  unfold base at h
  unfold digitToChar delimiter
  split <;> omega

theorem charToDigit_digitToChar (d : Nat) (h : d < base) :
    charToDigit (digitToChar d) = some d := by
  unfold base at h
  by_cases h26 : d < 26
  · rw [digitToChar, if_pos h26, charToDigit, if_pos ⟨by omega, by omega⟩]
    congr 1
    omega
  · rw [digitToChar, if_neg h26, charToDigit, if_neg (by omega), if_neg (by omega),
      if_pos ⟨by omega, by omega⟩]
    congr 1
    omega

theorem charsToDigits_map (ds : List Nat) (h : ∀ d ∈ ds, d < base) :
    charsToDigits (ds.map digitToChar) = some ds := by
  induction ds with
  | nil => rfl
  | cons d ds ih =>
    simp only [List.map_cons, charsToDigits,
      charToDigit_digitToChar d (h d (List.mem_cons_self _ _)),
      ih (fun x hx => h x (List.mem_cons_of_mem _ hx))]

theorem splitLast_not_mem : ∀ (l : List Nat), delimiter ∉ l → splitLast l = none := by
  intro l
  induction l with
  | nil => intro _; rfl
  | cons c rest ih =>
    intro h
    have hc : ¬ c = delimiter := fun hc => h (hc ▸ List.mem_cons_self _ _)
    have hrest : delimiter ∉ rest := fun hr => h (List.mem_cons_of_mem _ hr)
    simp only [splitLast, ih hrest, if_neg hc]

theorem splitLast_append (xs suf : List Nat) (h : delimiter ∉ suf) :
    splitLast (xs ++ delimiter :: suf) = some (xs, suf) := by
  induction xs with
  | nil =>
    simp only [List.nil_append, splitLast, splitLast_not_mem suf h,
      eq_self_iff_true, if_true]
  | cons x xs ih =>
    simp only [List.cons_append, splitLast, List.append_eq, ih]

theorem encLoop_sim (s : List Nat) (b : Nat) :
    ∀ (fuel npar bias delta h ndec idec fdec : Nat),
      (s.filter (fun c => decide (c < npar))).length = h →
      idec + delta + ndec * (h + 1) = npar * (h + 1) →
      ndec ≤ npar →
      ((idec = 0) ↔ (h = b)) →
      b ≤ h →
      s.length ≤ h + fuel →
      (encLoop s b fuel npar bias delta h).length < fdec →
      decLoop fdec (s.filter (fun c => decide (c < npar))) ndec idec bias
        (encLoop s b fuel npar bias delta h) = .ok s := by
  intro fuel
  induction fuel with
  | zero =>
    intro npar bias delta h ndec idec fdec hA hinv hnd hfirst hbh hlen hfdec
    have hfl : (s.filter (fun c => decide (c < npar))).length = s.length := by
      have := List.length_filter_le (fun c => decide (c < npar)) s
      omega
    have hfs : s.filter (fun c => decide (c < npar)) = s :=
      filter_eq_self_of_length _ s hfl
    rw [show encLoop s b 0 npar bias delta h = [] from rfl, decLoop_nil, hfs]
  | succ fuel ih =>
    intro npar bias delta h ndec idec fdec hA hinv hnd hfirst hbh hlen hfdec
    by_cases hlt : h < s.length
    · cases hm : minGE npar s with
      | none =>
        exfalso
        have hall := minGE_none npar s hm
        have hfs : s.filter (fun c => decide (c < npar)) = s :=
          filter_eq_self_of_length _ s (by
            have h2 : s.filter (fun c => decide (c < npar)) = s := by
              refine List.filter_eq_self.mpr ?_
              intro a ha
              exact decide_eq_true (hall a ha)
            rw [h2])
        rw [hfs] at hA
        omega
      | some m =>
        obtain ⟨hmem, hge, hmin⟩ := minGE_some npar s m hm
        have hcongr : s.filter (fun c => decide (c < npar)) =
            s.filter (fun c => decide (c < m)) := by
          refine List.filter_congr ?_
          intro a _
          refine decide_eq_decide.mpr ?_
          constructor
          · intro hlt2; omega
          · intro hlt2
            by_contra hge2
            exact absurd (hmin a ‹a ∈ s› (by omega)) (by omega)
        simp only [encLoop, if_pos hlt, hm] at hfdec ⊢
        rw [hcongr] at hA ⊢
        obtain ⟨n2, i2, hrun, hp1, hp2, hp3, hp4, hp5⟩ :=
          encScan_sim b m s ([] : List Nat) bias (delta + (m - npar) * (h + 1)) h
            ndec idec
            (encLoop s b fuel (m + 1)
              (encScan b m s bias (delta + (m - npar) * (h + 1)) h).2.1
              ((encScan b m s bias (delta + (m - npar) * (h + 1)) h).2.2.1 + 1)
              (encScan b m s bias (delta + (m - npar) * (h + 1)) h).2.2.2)
            fdec
            (by simp only [List.nil_append]; exact hA.symm)
            (by
              simp only [List.length_nil]
              have e3 : (m - npar) * (h + 1) = m * (h + 1) - npar * (h + 1) :=
                Nat.sub_mul m npar (h + 1)
              have e4 : npar * (h + 1) ≤ m * (h + 1) :=
                Nat.mul_le_mul_right _ hge
              omega)
            (le_trans hnd hge) hfirst hbh hfdec
        simp only [List.nil_append] at hrun hp1 hp2
        have hfe : s.filter (fun c => decide (c ≤ m)) =
            s.filter (fun c => decide (c < m + 1)) := by
          refine List.filter_congr ?_
          intro a _
          refine decide_eq_decide.mpr ?_
          omega
        have hgrow : (s.filter (fun c => decide (c < m))).length <
            (s.filter (fun c => decide (c ≤ m))).length :=
          length_filter_lt_of_mem m m s hmem (Nat.le_refl m)
        rw [hfe] at hrun hp1 hp2
        refine hrun.trans (ih (m + 1)
          (encScan b m s bias (delta + (m - npar) * (h + 1)) h).2.1
          ((encScan b m s bias (delta + (m - npar) * (h + 1)) h).2.2.1 + 1)
          (encScan b m s bias (delta + (m - npar) * (h + 1)) h).2.2.2
          n2 i2 _ hp1.symm ?_ (by omega) hp4 hp5 ?_ (Nat.lt_succ_self _))
        · have e5 : (m + 1) * ((encScan b m s bias (delta + (m - npar) * (h + 1)) h).2.2.2 + 1) =
              m * ((encScan b m s bias (delta + (m - npar) * (h + 1)) h).2.2.2 + 1) +
                ((encScan b m s bias (delta + (m - npar) * (h + 1)) h).2.2.2 + 1) :=
            Nat.succ_mul _ _
          omega
        · rw [← hfe] at hp1
          have hstep : h + 1 ≤ (encScan b m s bias (delta + (m - npar) * (h + 1)) h).2.2.2 := by
            rw [hp1]
            omega
          omega
    · have hfl : (s.filter (fun c => decide (c < npar))).length = s.length := by
        have := List.length_filter_le (fun c => decide (c < npar)) s
        omega
      have hfs : s.filter (fun c => decide (c < npar)) = s :=
        filter_eq_self_of_length _ s hfl
      simp only [encLoop, if_neg hlt]
      rw [decLoop_nil, hfs]

theorem decode_encode_assembled (s bs D : List Nat)
    (hdigD : ∀ d ∈ D, d < base)
    (hmain : decLoop (D.length + 1) bs initialN 0 initialBias D = .ok s) :
    punycode_decode (bs ++ (if bs.length = 0 then [] else [delimiter]) ++
      D.map digitToChar) = .ok s := by
  have hnodelim : delimiter ∉ D.map digitToChar := by
    intro hmem
    obtain ⟨d, hd, hdc⟩ := List.mem_map.mp hmem
    exact digitToChar_ne_delimiter d (hdigD d hd) hdc
  have hctd := charsToDigits_map D hdigD
  by_cases hb0 : bs.length = 0
  · have hBnil : bs = [] := List.length_eq_zero.mp hb0
    rw [hBnil] at hmain ⊢
    simp only [List.length_nil, List.nil_append, eq_self_iff_true, if_true]
    simp only [punycode_decode, splitLast_not_mem _ hnodelim, hctd]
    exact hmain
  · rw [if_neg hb0, List.append_assoc, List.singleton_append]
    simp only [punycode_decode, splitLast_append bs (D.map digitToChar) hnodelim, hctd]
    exact hmain

theorem punycode_roundtrip_core (s : List Nat) :
    punycode_decode (punycode_encode s) = .ok s := by
  have hdig : ∀ d ∈ encLoop s (s.filter (fun c => decide (c < initialN))).length
      (s.length + 1) initialN initialBias 0
      (s.filter (fun c => decide (c < initialN))).length, d < base :=
    encLoop_digits_lt s _ _ _ _ _ _
  have main := encLoop_sim s (s.filter (fun c => decide (c < initialN))).length
    (s.length + 1) initialN initialBias 0
    (s.filter (fun c => decide (c < initialN))).length initialN 0
    ((encLoop s (s.filter (fun c => decide (c < initialN))).length
      (s.length + 1) initialN initialBias 0
      (s.filter (fun c => decide (c < initialN))).length).length + 1)
    rfl (by omega) (Nat.le_refl _) (by simp) (Nat.le_refl _) (by omega)
    (Nat.lt_succ_self _)
  simp only [punycode_encode]
  exact decode_encode_assembled s _ _ hdig main

end Punycode

/-- C2: Punycode decoding inverts Punycode encoding — for every sequence of
valid Unicode scalar values with no lone surrogates, decoding the encoding
yields the original sequence. In this model arithmetic is unbounded, so the
codec never overflows and the law holds for every such sequence. -/
theorem punycode_roundtrip (s : List Nat)
    (hval : ∀ c ∈ s, Punycode.validScalar c = true) :
    Punycode.punycode_decode (Punycode.punycode_encode s) = .ok s :=
  Punycode.punycode_roundtrip_core s

/-- C2 witness: the round-trip at the spec's concrete scenario "bücher"
(encoded form "bcher-kva"). -/
theorem punycode_roundtrip_witness :
    (∀ c ∈ ([0x62, 0xFC, 0x63, 0x68, 0x65, 0x72] : List Nat),
      Punycode.validScalar c = true) ∧
      Punycode.punycode_decode
          (Punycode.punycode_encode [0x62, 0xFC, 0x63, 0x68, 0x65, 0x72]) =
        .ok [0x62, 0xFC, 0x63, 0x68, 0x65, 0x72] :=
  ⟨by decide, punycode_roundtrip [0x62, 0xFC, 0x63, 0x68, 0x65, 0x72] (by decide)⟩

theorem inRange_iff (c : Nat) (r : MappingRange) :
    inRange c r = true ↔ (r.lo ≤ c ∧ c ≤ r.hi) := by
  simp [inRange]

theorem coversFrom_bounds :
    ∀ (rs : List MappingRange) (lo : Nat), coversFrom lo rs = true →
      ∀ r ∈ rs, lo ≤ r.lo ∧ r.lo ≤ r.hi ∧ r.hi ≤ 0x10FFFF := by
  intro rs
  induction rs with
  | nil => intro lo h; simp [coversFrom] at h
  | cons r rest ih =>
    intro lo h r2 hr2
    cases rest with
    | nil =>
      simp only [coversFrom, Bool.and_eq_true, decide_eq_true_eq] at h
      obtain ⟨⟨h1, h2⟩, h3⟩ := h
      have : r2 = r := List.mem_singleton.mp hr2
      subst this
      omega
    | cons r3 rest3 =>
      simp only [coversFrom, Bool.and_eq_true, decide_eq_true_eq] at h
      obtain ⟨⟨h1, h2⟩, h3⟩ := h
      rcases List.mem_cons.mp hr2 with heq | hmem
      · subst heq
        obtain ⟨ha, hb, hc⟩ := ih (r2.hi + 1) h3 r3 (List.mem_cons_self _ _)
        exact ⟨by omega, h2, by omega⟩
      · obtain ⟨ha, hb, hc⟩ := ih (r.hi + 1) h3 r2 hmem
        exact ⟨by omega, hb, hc⟩

theorem coversFrom_pairwise :
    ∀ (rs : List MappingRange) (lo : Nat), coversFrom lo rs = true →
      List.Pairwise (fun a b => a.hi < b.lo) rs := by
  intro rs
  induction rs with
  | nil => intro lo _; exact List.Pairwise.nil
  | cons r rest ih =>
    intro lo h
    cases rest with
    | nil => simp
    | cons r3 rest3 =>
      simp only [coversFrom, Bool.and_eq_true, decide_eq_true_eq] at h
      obtain ⟨⟨h1, h2⟩, h3⟩ := h
      refine List.Pairwise.cons ?_ (ih (r.hi + 1) h3)
      intro r2 hr2
      have := (coversFrom_bounds (r3 :: rest3) (r.hi + 1) h3 r2 hr2).1
      omega

theorem coversFrom_countP (c : Nat) :
    ∀ (rs : List MappingRange) (lo : Nat), coversFrom lo rs = true →
      lo ≤ c → c ≤ 0x10FFFF → rs.countP (inRange c) = 1 := by
  intro rs
  induction rs with
  | nil => intro lo h; simp [coversFrom] at h
  | cons r rest ih =>
    intro lo h hlo hhi
    cases rest with
    | nil =>
      simp only [coversFrom, Bool.and_eq_true, decide_eq_true_eq] at h
      obtain ⟨⟨h1, h2⟩, h3⟩ := h
      have hin : inRange c r = true := (inRange_iff c r).mpr (by omega)
      simp [List.countP_cons, hin]
    | cons r3 rest3 =>
      simp only [coversFrom, Bool.and_eq_true, decide_eq_true_eq] at h
      obtain ⟨⟨h1, h2⟩, h3⟩ := h
      by_cases hc : c ≤ r.hi
      · have hin : inRange c r = true := (inRange_iff c r).mpr (by omega)
        have hrest : (r3 :: rest3).countP (inRange c) = 0 := by
          refine List.countP_eq_zero.mpr ?_
          intro r2 hr2
          have := (coversFrom_bounds (r3 :: rest3) (r.hi + 1) h3 r2 hr2).1
          simp only [inRange_iff]
          omega
        simp [List.countP_cons, hin, hrest]
      · have hin : inRange c r = false := by
          have := (inRange_iff c r).mp
          revert this
          cases inRange c r <;> simp <;> omega
        have hrest := ih (r.hi + 1) h3 (by omega) hhi
        simp [List.countP_cons, hin, hrest]

theorem bsearchGo_finds (c : Nat) :
    ∀ (fuel : Nat) (rs : List MappingRange),
      rs.length ≤ fuel →
      List.Pairwise (fun a b => a.hi < b.lo) rs →
      (∀ r ∈ rs, r.lo ≤ r.hi) →
      ∀ r ∈ rs, inRange c r = true → bsearchGo fuel c rs = some r := by
  intro fuel
  induction fuel with
  | zero =>
    intro rs hlen _ _ r hr _
    have : rs = [] := List.eq_nil_of_length_eq_zero (by omega)
    subst this
    simp at hr
  | succ fuel ih =>
    intro rs hlen hpw hlh r hr hin
    have hne : rs ≠ [] := by intro heq; subst heq; simp at hr
    have hpos : 0 < rs.length := List.length_pos.mpr hne
    have hmidlt : rs.length / 2 < rs.length := Nat.div_lt_self hpos (by omega)
    have hrmid : rs[rs.length / 2]? = some (rs.get ⟨rs.length / 2, hmidlt⟩) := by
      rw [List.getElem?_eq_getElem hmidlt]
      rfl
    have hdropc : rs.drop (rs.length / 2) =
        rs.get ⟨rs.length / 2, hmidlt⟩ :: rs.drop (rs.length / 2 + 1) := by
      rw [List.drop_eq_getElem_cons hmidlt]
      rfl
    have hsplit : rs.take (rs.length / 2) ++ rs.drop (rs.length / 2) = rs :=
      List.take_append_drop _ rs
    have hpw2 : List.Pairwise (fun a b => a.hi < b.lo)
        (rs.take (rs.length / 2) ++ rs.drop (rs.length / 2)) := by
      rw [hsplit]; exact hpw
    rw [List.pairwise_append] at hpw2
    obtain ⟨hpwt, hpwd, hcross⟩ := hpw2
    rw [hdropc] at hpwd
    rw [List.pairwise_cons] at hpwd
    obtain ⟨hmidrest, hpwd2⟩ := hpwd
    have hmem2 : r ∈ rs.take (rs.length / 2) ++ rs.drop (rs.length / 2) := by
      rw [hsplit]; exact hr
    set rmid := rs.get ⟨rs.length / 2, hmidlt⟩ with hrmiddef
    have hmidmem : rmid ∈ rs := List.get_mem rs (rs.length / 2) hmidlt
    have hmidlh : rmid.lo ≤ rmid.hi := hlh rmid hmidmem
    have hinr := (inRange_iff c r).mp hin
    simp only [bsearchGo, hrmid]
    by_cases hlt : c < rmid.lo
    · rw [if_pos hlt]
      have hrtake : r ∈ rs.take (rs.length / 2) := by
        rcases List.mem_append.mp hmem2 with hm | hm
        · exact hm
        · exfalso
          rw [hdropc] at hm
          rcases List.mem_cons.mp hm with heq | hm2
          · subst heq; omega
          · have := hmidrest r hm2
            omega
      refine ih (rs.take (rs.length / 2)) ?_ hpwt ?_ r hrtake hin
      · rw [List.length_take]
        omega
      · intro r2 hr2
        exact hlh r2 ((rs.take_sublist _).mem hr2)
    · rw [if_neg hlt]
      by_cases hgt : rmid.hi < c
      · rw [if_pos hgt]
        have hrdrop : r ∈ rs.drop (rs.length / 2 + 1) := by
          rcases List.mem_append.mp hmem2 with hm | hm
          · exfalso
            have := hcross r hm rmid (by rw [hdropc]; exact List.mem_cons_self _ _)
            omega
          · rw [hdropc] at hm
            rcases List.mem_cons.mp hm with heq | hm2
            · exfalso; subst heq; omega
            · exact hm2
        refine ih (rs.drop (rs.length / 2 + 1)) ?_ hpwd2 ?_ r hrdrop hin
        · rw [List.length_drop]
          omega
        · intro r2 hr2
          exact hlh r2 ((rs.drop_sublist _).mem hr2)
      · rw [if_neg hgt]
        have : r = rmid := by
          rcases List.mem_append.mp hmem2 with hm | hm
          · exfalso
            have := hcross r hm rmid (by rw [hdropc]; exact List.mem_cons_self _ _)
            omega
          · rw [hdropc] at hm
            rcases List.mem_cons.mp hm with heq | hm2
            · exact heq
            · exfalso
              have := hmidrest r hm2
              omega
        rw [this]

theorem loadTable_some (rs t : List MappingRange) (hload : loadTable rs = some t) :
    t = rs ∧ coversFrom 0 t = true := by
  unfold loadTable at hload
  by_cases hw : tableWF rs = true
  · rw [if_pos hw] at hload
    injection hload with hload
    subst hload
    exact ⟨rfl, hw⟩
  · rw [if_neg hw] at hload
    exact absurd hload (by simp)

theorem lookup_hits (t : List MappingRange) (hwf : coversFrom 0 t = true)
    (c : Nat) (hc : c ≤ 0x10FFFF) :
    ∃ r, r ∈ t ∧ inRange c r = true ∧ idna_mapping_lookup t c = .ok r.entry := by
  have hcount := coversFrom_countP c t 0 hwf (Nat.zero_le c) hc
  have hpw := coversFrom_pairwise t 0 hwf
  have hex : ∃ r ∈ t, inRange c r = true := by
    rw [← List.countP_pos]
    omega
  obtain ⟨r, hr, hin⟩ := hex
  have hfind := bsearchGo_finds c t.length t (Nat.le_refl _) hpw
    (fun r2 h2 => (coversFrom_bounds t 0 hwf r2 h2).2.1) r hr hin
  refine ⟨r, hr, hin, ?_⟩
  unfold idna_mapping_lookup
  rw [if_pos hc, hfind]

/-- C8: the mapping-table lookup on 0x00DF (LATIN SMALL LETTER SHARP S)
returns a `Deviation` entry whose replacement is exactly `[0x73, 0x73]`
("ss"). -/
theorem lookup_sharp_s_deviation :
    idna_mapping_lookup uts46Fragment 0xDF =
      .ok ⟨.DEVIATION, none, [0x73, 0x73]⟩ := by
  rfl

/-- C3 counterexample: the claim says the kind vocabulary has exactly seven
values, but the C enum `IDNAMappingResultType` declares exactly five, so
its cardinality is not seven. -/
theorem mapping_kind_count_ne_seven :
    Fintype.card IDNAMappingResultType ≠ 7 := by
  decide

/-- C3 (amended): every classification returned by the mapping-table
lookup is one of exactly the five declared kinds Valid, Mapped, Deviation,
Disallowed, Ignored. -/
theorem mapping_kind_classification (t : List MappingRange) (c : Nat) (e : MappingEntry)
    (h : idna_mapping_lookup t c = .ok e) :
    (e.kind = .VALID ∨ e.kind = .MAPPED ∨ e.kind = .DEVIATION ∨
      e.kind = .DISALLOWED ∨ e.kind = .IGNORED) ∧
      Fintype.card IDNAMappingResultType = 5 := by
  refine ⟨?_, by decide⟩
  cases e.kind <;> simp

/-- C3 witness: the amended classification at the concrete lookup of 0x41
in the modelled fragment. -/
theorem mapping_kind_classification_witness :
    ((⟨.VALID, some .NONE, []⟩ : MappingEntry).kind = .VALID ∨
      (⟨.VALID, some .NONE, []⟩ : MappingEntry).kind = .MAPPED ∨
      (⟨.VALID, some .NONE, []⟩ : MappingEntry).kind = .DEVIATION ∨
      (⟨.VALID, some .NONE, []⟩ : MappingEntry).kind = .DISALLOWED ∨
      (⟨.VALID, some .NONE, []⟩ : MappingEntry).kind = .IGNORED) ∧
      Fintype.card IDNAMappingResultType = 5 :=
  mapping_kind_classification uts46Fragment 0x41 ⟨.VALID, some .NONE, []⟩ rfl

/-- C1: for a load-validated mapping table, every code point in
0x0..0x10FFFF is contained in exactly one stored range, the stored ranges
are sorted and non-overlapping, and the lookup returns exactly that range's
classification entry. -/
theorem mapping_table_total_unique (rs t : List MappingRange)
    (hload : loadTable rs = some t) (c : Nat) (hc : c ≤ 0x10FFFF) :
    t.countP (inRange c) = 1 ∧
      List.Pairwise (fun a b => a.hi < b.lo) t ∧
      ∃ r, r ∈ t ∧ inRange c r = true ∧ idna_mapping_lookup t c = .ok r.entry := by
  obtain ⟨heq, hwf⟩ := loadTable_some rs t hload
  exact ⟨coversFrom_countP c t 0 hwf (Nat.zero_le c) hc,
    coversFrom_pairwise t 0 hwf,
    lookup_hits t hwf c hc⟩

/-- C1 witness: totality and uniqueness at the concrete modelled fragment
and the code point 0x41. -/
theorem mapping_table_total_unique_witness :
    loadTable uts46Fragment = some uts46Fragment ∧
      (uts46Fragment.countP (inRange 0x41) = 1 ∧
        List.Pairwise (fun a b => a.hi < b.lo) uts46Fragment ∧
        ∃ r, r ∈ uts46Fragment ∧ inRange 0x41 r = true ∧
          idna_mapping_lookup uts46Fragment 0x41 = .ok r.entry) :=
  ⟨rfl, mapping_table_total_unique uts46Fragment uts46Fragment rfl 0x41 (by decide)⟩

/-- C4: for a load-validated mapping table, the lookup fails with
`OutOfRange` exactly on inputs above 0x10FFFF, and within the range it is
total (always produces an entry). -/
theorem lookup_fails_iff_out_of_range (rs t : List MappingRange)
    (hload : loadTable rs = some t) (c : Nat) :
    (idna_mapping_lookup t c = .error .outOfRange ↔ 0x10FFFF < c) ∧
      (c ≤ 0x10FFFF → ∃ e, idna_mapping_lookup t c = .ok e) := by
  obtain ⟨heq, hwf⟩ := loadTable_some rs t hload
  have hok : c ≤ 0x10FFFF → ∃ e, idna_mapping_lookup t c = .ok e := by
    intro hc
    obtain ⟨r, _, _, hlk⟩ := lookup_hits t hwf c hc
    exact ⟨r.entry, hlk⟩
  refine ⟨⟨?_, ?_⟩, hok⟩
  · intro herr
    by_contra hle
    obtain ⟨e, he⟩ := hok (by omega)
    rw [he] at herr
    exact absurd herr (by simp)
  · intro hgt
    unfold idna_mapping_lookup
    rw [if_neg (by omega)]

/-- C4 witness: the out-of-range behaviour at the concrete modelled
fragment and the input 0x110000. -/
theorem lookup_fails_iff_out_of_range_witness :
    loadTable uts46Fragment = some uts46Fragment ∧
      ((idna_mapping_lookup uts46Fragment 0x110000 = .error .outOfRange ↔
          (0x10FFFF : Nat) < 0x110000) ∧
        ((0x110000 : Nat) ≤ 0x10FFFF →
          ∃ e, idna_mapping_lookup uts46Fragment 0x110000 = .ok e)) :=
  ⟨rfl, lookup_fails_iff_out_of_range uts46Fragment uts46Fragment rfl 0x110000⟩

/-- C10 counterexample: on the spec-modelled lookup, the 32-bit input
0x110000 — above 0x10FFFF — does not produce a mapping entry: it fails with
`OutOfRange`. The spec's contract (§4.1) makes out-of-range inputs a
failure, contradicting totality over every uint32 input. -/
theorem lookup_above_range_errors :
    idna_mapping_lookup uts46Fragment 0x110000 = .error .outOfRange := rfl

/-- C10 (amended): for a load-validated table, a 32-bit input yields a
mapping entry exactly when it lies in 0x0..0x10FFFF; inputs above that
range fail with `OutOfRange` instead of producing an entry. -/
theorem lookup_ok_iff_in_range (rs t : List MappingRange)
    (hload : loadTable rs = some t) (c : Nat) (hc32 : c < 4294967296) :
    (∃ e, idna_mapping_lookup t c = .ok e) ↔ c ≤ 0x10FFFF := by
  obtain ⟨heq, hwf⟩ := loadTable_some rs t hload
  constructor
  · rintro ⟨e, he⟩
    by_contra hgt
    unfold idna_mapping_lookup at he
    rw [if_neg (by omega)] at he
    exact absurd he (by simp)
  · intro hc
    obtain ⟨r, _, _, hlk⟩ := lookup_hits t hwf c hc
    exact ⟨r.entry, hlk⟩

/-- C10 amended-claim witness: the equivalence at the concrete modelled
fragment and the in-range 32-bit input 0x61. -/
theorem lookup_ok_iff_in_range_witness :
    loadTable uts46Fragment = some uts46Fragment ∧ (0x61 : Nat) < 4294967296 ∧
      ((∃ e, idna_mapping_lookup uts46Fragment 0x61 = .ok e) ↔
        (0x61 : Nat) ≤ 0x10FFFF) :=
  ⟨rfl, by decide,
    lookup_ok_iff_in_range uts46Fragment uts46Fragment rfl 0x61 (by decide)⟩

/-- C6: the Label Transform Engine never propagates a Punycode codec hard
failure to its caller. If any label of the input is ACE-prefixed and its
suffix fails to Punycode-decode, `toUnicode` still returns a result whose
status set contains `punycode` and leaves that label unchanged; `toAsciiN`
likewise always returns a `TransformResult` (its only codec call, encoding,
is total in the unbounded model, so no hard failure can arise there). -/
theorem transform_catches_punycode_failure (t : List MappingRange)
    (norm : List Nat → List Nat) (val : List Nat → List StatusCode)
    (name label : List Nat) (e : Punycode.PunycodeError)
    (hmem : label ∈ splitLabels name) (hace : isACE label = true)
    (hfail : Punycode.punycode_decode (label.drop 4) = .error e) :
    StatusCode.punycode ∈ (toUnicode t norm val name).statuses ∧
      processLabelToUnicode t norm val label = (label, [StatusCode.punycode]) ∧
      (∀ transitional name2, ∃ res, toAsciiN t norm val transitional name2 = res) := by
  have hproc : processLabelToUnicode t norm val label =
      (label, [StatusCode.punycode]) := by
    unfold processLabelToUnicode
    rw [if_pos hace, hfail]
  refine ⟨?_, hproc, fun transitional name2 => ⟨_, rfl⟩⟩
  have h1 : processLabelToUnicode t norm val label ∈
      (splitLabels name).map (processLabelToUnicode t norm val) :=
    List.mem_map_of_mem _ hmem
  have h2 : (processLabelToUnicode t norm val label).2 ∈
      ((splitLabels name).map (processLabelToUnicode t norm val)).map
        (fun p => p.2) :=
    List.mem_map_of_mem _ h1
  rw [hproc] at h2
  simp only [toUnicode]
  exact List.mem_flatten.mpr ⟨[StatusCode.punycode], h2, by simp⟩

/-- C6 witness: a concrete ACE-prefixed label whose Punycode suffix is
malformed ("xn--@"); the transform records status `punycode` and keeps the
label. -/
theorem transform_catches_punycode_failure_witness :
    (([0x78, 0x6E, 0x2D, 0x2D, 0x40] : List Nat) ∈
        splitLabels [0x78, 0x6E, 0x2D, 0x2D, 0x40]) ∧
      isACE [0x78, 0x6E, 0x2D, 0x2D, 0x40] = true ∧
      Punycode.punycode_decode (([0x78, 0x6E, 0x2D, 0x2D, 0x40] : List Nat).drop 4) =
        .error .badInput ∧
      (StatusCode.punycode ∈
          (toUnicode uts46Fragment (fun l => l) (fun _ => [])
            [0x78, 0x6E, 0x2D, 0x2D, 0x40]).statuses ∧
        processLabelToUnicode uts46Fragment (fun l => l) (fun _ => [])
            [0x78, 0x6E, 0x2D, 0x2D, 0x40] =
          ([0x78, 0x6E, 0x2D, 0x2D, 0x40], [StatusCode.punycode]) ∧
        (∀ transitional name2, ∃ res,
          toAsciiN uts46Fragment (fun l => l) (fun _ => []) transitional name2 = res)) :=
  ⟨by decide, by decide, rfl,
    transform_catches_punycode_failure uts46Fragment (fun l => l) (fun _ => [])
      [0x78, 0x6E, 0x2D, 0x2D, 0x40] [0x78, 0x6E, 0x2D, 0x2D, 0x40] .badInput
      (by decide) (by decide) rfl⟩

/-- C7: the conformance harness passes a vector exactly when both result
strings match the expected strings and each produced status set is — as a
set — a member of the corresponding family of admissible status-code sets,
which the test vector stores as a set of acceptable status-code sets. -/
theorem harness_status_membership (t : List MappingRange)
    (norm : List Nat → List Nat) (val : List Nat → List StatusCode)
    (v : TestVector) :
    vectorPasses t norm val v = true ↔
      ((toUnicode t norm val v.source).result = v.toUnicodeExpected ∧
        (∃ adm ∈ v.toUnicodeStatuses,
          ∀ code, code ∈ adm ↔ code ∈ (toUnicode t norm val v.source).statuses) ∧
        (toAsciiN t norm val false v.source).result = v.toAsciiNExpected ∧
        (∃ adm ∈ v.toAsciiNStatuses,
          ∀ code, code ∈ adm ↔ code ∈ (toAsciiN t norm val false v.source).statuses)) := by
  have hset : ∀ (a bl : List StatusCode),
      (setEqSC a bl = true ↔ (∀ code, code ∈ a ↔ code ∈ bl)) := by
    intro a bl
    simp only [setEqSC, Bool.and_eq_true, List.all_eq_true, decide_eq_true_eq]
    constructor
    · rintro ⟨h1, h2⟩ code
      exact ⟨fun hc => h1 code hc, fun hc => h2 code hc⟩
    · intro h
      exact ⟨fun code hc => (h code).mp hc, fun code hc => (h code).mpr hc⟩
  simp only [vectorPasses, memberOfSets, Bool.and_eq_true, List.any_eq_true,
    decide_eq_true_eq]
  constructor
  · rintro ⟨⟨hs1, ⟨adm1, hadm1, hset1⟩⟩, hs2, ⟨adm2, hadm2, hset2⟩⟩
    exact ⟨hs1, ⟨adm1, hadm1, (hset _ _).mp hset1⟩, hs2,
      ⟨adm2, hadm2, (hset _ _).mp hset2⟩⟩
  · rintro ⟨hs1, ⟨adm1, hadm1, hset1⟩, hs2, ⟨adm2, hadm2, hset2⟩⟩
    exact ⟨⟨hs1, ⟨adm1, hadm1, (hset _ _).mpr hset1⟩⟩, hs2,
      ⟨adm2, hadm2, (hset _ _).mpr hset2⟩⟩

/-- C9: for any well-formed C mapping result of kind Mapped or Deviation,
the replacement scalar sequence has length at most 255, because the C
interface stores the count in the `uint8_t` field `mapped_count`. -/
theorem mapped_count_bound (r : IDNAMappingResult)
    (hwf : wfIDNAMappingResult r)
    (hk : r.type.val = IDNAMappingResultType.MAPPED.toC ∨
      r.type.val = IDNAMappingResultType.DEVIATION.toC) :
    r.mapped_unicode_scalars.length ≤ 255 := by
  unfold wfIDNAMappingResult at hwf
  rw [hwf]
  exact Nat.le_of_lt_succ r.mapped_count.isLt

/-- C9 witness: the bound at a concrete well-formed mapping result. -/
theorem mapped_count_bound_witness :
    wfIDNAMappingResult ⟨1, 2, [0x73, 0x73], 2⟩ ∧
      (⟨1, 2, [0x73, 0x73], 2⟩ : IDNAMappingResult).mapped_unicode_scalars.length ≤ 255 :=
  ⟨rfl, mapped_count_bound ⟨1, 2, [0x73, 0x73], 2⟩ rfl (Or.inl rfl)⟩
